import Mathlib

/-
Verification of the storage layer of flokicoin-electrs
(src/new_index/db.rs): the DB handle over the ordered key-value engine,
its compatibility check on open, the forward and reverse cursor-bounded
scan iterators, batched writes, point lookups, and the stats-exporter
gauge update.

Byte strings are modelled as lists of naturals; the engine's contents as
an association list kept strictly ascending in byte-lexicographic key
order, which is the order the engine stores and iterates keys in.
-/

set_option autoImplicit false

namespace FlokiDB

/-- A byte string (each element one byte value). -/
abbrev Bytes := List Nat

/-- A persisted row (`DBRow` in src/new_index/db.rs): exact key and value
byte strings, opaque to this layer. -/
structure DBRow where
  key : Bytes
  value : Bytes
  deriving Repr, DecidableEq

/-- Strict byte-lexicographic order on byte strings: the comparator used by
the engine for key ordering and by `DB::write` for batch sorting
(`a.key.cmp(&b.key)`). -/
def ltb : Bytes → Bytes → Bool
  | [], [] => false
  | [], _ :: _ => true
  | _ :: _, [] => false
  | a :: as, b :: bs => if a < b then true else if b < a then false else ltb as bs

/-- `startsWithB p k` holds when the key `k` starts with the byte string `p`
(Rust `key.starts_with(&self.prefix)` in both scan iterators). -/
def startsWithB : Bytes → Bytes → Bool
  | [], _ => true
  | _ :: _, [] => false
  | a :: as, b :: bs => a == b && startsWithB as bs

/-- The engine's contents: rows as an association list, strictly ascending
by key. -/
abbrev Store := List (Bytes × Bytes)

/-- Store invariant: keys strictly ascending in byte-lexicographic order
(the ordered engine's key layout). -/
def SortedStore (s : Store) : Prop :=
  List.Pairwise (fun e1 e2 => ltb e1.1 e2.1 = true) s

instance : DecidablePred SortedStore := fun s => by
  unfold SortedStore
  infer_instance

/-- Point lookup (`DB::get` / the engine's `get`): value stored under `k`,
or absence — distinct from an empty stored value. -/
def getStore : Store → Bytes → Option Bytes
  | [], _ => none
  | e :: rest, k => if e.1 = k then some e.2 else getStore rest k

/-- Single-key upsert (`DB::put` / the engine's `put`): insert keeping keys
ascending, replacing any existing value under the same key. -/
def putStore : Store → Bytes → Bytes → Store
  | [], k, v => [(k, v)]
  | e :: rest, k, v =>
    if ltb k e.1 then (k, v) :: e :: rest
    else if ltb e.1 k then e :: putStore rest k v
    else (k, v) :: rest

/-- State of the forward scan iterator (`ScanIterator` in
src/new_index/db.rs): the fixed key pfx, the underlying engine cursor
(modelled as the list of remaining entries in ascending key order), and the
`done` flag. -/
structure ScanIterator where
  pfx : Bytes
  iter : List (Bytes × Bytes)
  done : Bool
  deriving Repr, DecidableEq

/-- One pull of the forward scan iterator (`ScanIterator::next`): if done,
yield nothing; else fetch the next cursor entry (none when exhausted); if
its key does not start with the fixed pfx, set done and yield nothing;
otherwise yield the row. -/
def scanNext (st : ScanIterator) : Option DBRow × ScanIterator :=
  if st.done then (none, st)
  else
    match st.iter with
    | [] => (none, st)
    | e :: rest =>
      if startsWithB st.pfx e.1 then
        (some ⟨e.1, e.2⟩, ⟨st.pfx, rest, false⟩)
      else
        (none, ⟨st.pfx, rest, true⟩)

/-- Collect every row the iterator yields, pulling up to `fuel` times. -/
def runScanAux : Nat → ScanIterator → List DBRow
  | 0, _ => []
  | n + 1, st =>
    match scanNext st with
    | (none, _) => []
    | (some r, st') => r :: runScanAux n st'

/-- The full sequence produced by a forward scan iterator (enough fuel to
reach its first refusal, after which it never yields again). -/
def runScan (st : ScanIterator) : List DBRow :=
  runScanAux (st.iter.length + 1) st

/-- `DB::iter_scan`: a forward cursor positioned at the first key not below
`p` (the engine iterates keys in ascending order from the seek target),
wrapped with pfx `p` and `done = false`. -/
def iterScan (s : Store) (p : Bytes) : ScanIterator :=
  ⟨p, s.dropWhile (fun e => ltb e.1 p), false⟩

/-- `DB::iter_scan_from`: a forward cursor positioned at the first key not
below `start_at`, wrapped with pfx `p` and `done = false`. -/
def iterScanFrom (s : Store) (p start_at : Bytes) : ScanIterator :=
  ⟨p, s.dropWhile (fun e => ltb e.1 start_at), false⟩

/-- State of the reverse scan iterator (`ReverseScanIterator`): fixed key
pfx, the backward engine cursor (modelled as the remaining entries in
descending key order, the head being the current position; an empty list is
an invalid cursor), and the `done` flag. -/
structure ReverseScanIterator where
  pfx : Bytes
  iter : List (Bytes × Bytes)
  done : Bool
  deriving Repr, DecidableEq

/-- One pull of the reverse scan iterator (`ReverseScanIterator::next`): if
done or the cursor is invalid, yield nothing; if the current key does not
start with the fixed pfx, set done (without moving the cursor) and yield
nothing; otherwise capture the row, step the cursor backward, and yield. -/
def revScanNext (st : ReverseScanIterator) : Option DBRow × ReverseScanIterator :=
  if st.done then (none, st)
  else
    match st.iter with
    | [] => (none, st)
    | e :: rest =>
      if startsWithB st.pfx e.1 then
        (some ⟨e.1, e.2⟩, ⟨st.pfx, rest, false⟩)
      else
        (none, ⟨st.pfx, st.iter, true⟩)

/-- Collect every row the reverse iterator yields, pulling up to `fuel`
times. -/
def runRevScanAux : Nat → ReverseScanIterator → List DBRow
  | 0, _ => []
  | n + 1, st =>
    match revScanNext st with
    | (none, _) => []
    | (some r, st') => r :: runRevScanAux n st'

/-- The full sequence produced by a reverse scan iterator. -/
def runRevScan (st : ReverseScanIterator) : List DBRow :=
  runRevScanAux (st.iter.length + 1) st

/-- `DB::iter_scan_reverse`: `seek_for_prev(prefix_max)` positions the raw
cursor at the last key not above `u`; stepping backward then visits the
keys not above `u` in descending order. -/
def iterScanReverse (s : Store) (p u : Bytes) : ReverseScanIterator :=
  ⟨p, (s.filter (fun e => !ltb u e.1)).reverse, false⟩

/-- Turn a store entry into the row the iterators yield. -/
def entryRow (e : Bytes × Bytes) : DBRow := ⟨e.1, e.2⟩

/-- `DBFlush`: whether a batched write forces synchronous durability and
keeps the write-ahead log (it never changes the committed contents). -/
inductive DBFlush
  | Disable
  | Enable
  deriving Repr, DecidableEq

/-- The key-ascending comparator `DB::write` sorts a batch by
(`a.key.cmp(&b.key)`), as a Bool-valued "not above". -/
def leKey (a b : DBRow) : Bool := !ltb b.key a.key

/-- Insert a row into a key-ascending list, keeping it ascending. -/
def insertRow (r : DBRow) : List DBRow → List DBRow
  | [] => [r]
  | x :: xs => if leKey r x then r :: x :: xs else x :: insertRow r xs

/-- The presort of a write batch: a deterministic comparison sort of the
rows by ascending key (`rows.sort_unstable_by(|a, b| a.key.cmp(&b.key))`). -/
def sortRows : List DBRow → List DBRow
  | [] => []
  | r :: rest => insertRow r (sortRows rest)

/-- `DB::write(rows, flush)`: sort the rows by ascending key, then apply
them in order as one atomic batch (`batch.put` per row, committed by
`write_opt`); the flush mode only selects durability, never contents. -/
def writeRows (s : Store) (rows : List DBRow) (_flush : DBFlush) : Store :=
  (sortRows rows).foldl (fun acc r => putStore acc r.key r.value) s

/-- The configuration surface the compatibility check consumes
(`Config::light_mode`, the reduced-data mode flag). -/
structure Config where
  light_mode : Bool
  deriving Repr, DecidableEq

/-- The fixed schema version (`DB_VERSION` in src/new_index/db.rs). -/
def DB_VERSION : Nat := 1

/-- Modelled from the spec: `util::bincode::serialize_little` applied to
the `u32` schema version — the bincode helper's source file is not among
the provided sources; the spec fixes its output as the little-endian
4-byte encoding of the unsigned integer. -/
def serializeLittle (n : Nat) : Bytes :=
  [n % 256, n / 256 % 256, n / 256 / 256 % 256, n / 256 / 256 / 256 % 256]

/-- The reserved compatibility-marker key `"V"` (byte 0x56). -/
def vKey : Bytes := [86]

/-- The computed compatibility bytes: the serialized schema version, with
one extra byte of value 1 pushed iff light mode is configured. -/
def compatibilityBytes (cfg : Config) : Bytes :=
  if cfg.light_mode then serializeLittle DB_VERSION ++ [1]
  else serializeLittle DB_VERSION

/-- `DB::verify_compatibility`, run on every open: read the marker key;
write the computed bytes when absent (first-ever open); fail fatally when
present and unequal (modelled as `none` — the "Incompatible database
found. Please reindex." panic); otherwise proceed with the store
untouched. -/
def verifyCompatibility (s : Store) (cfg : Config) : Option Store :=
  match getStore s vKey with
  | none => some (putStore s vKey (compatibilityBytes cfg))
  | some x => if x = compatibilityBytes cfg then some s else none

/-- Modelled from the spec: the engine's batched point lookup
(`rocksdb::DB::multi_get`, which `DB::multi_get` delegates to) returns one
per-key outcome — found value, absence, or an engine-level failure — for
each input key in input order; `engineLookup` is the engine's independent
per-key outcome. -/
def multiGet (engineLookup : Bytes → Except String (Option Bytes))
    (keys : List Bytes) : List (Except String (Option Bytes)) :=
  keys.map engineLookup

/-- One gauge update of the stats exporter (the `update_gauge` closure in
`DB::start_stats_exporter`): when the engine property is readable and
present and its string parses as a number, set the gauge to the parsed
value; in every other case leave the gauge untouched and raise no error.
The gauge's numeric type and the floating-point parse are abstracted as
`α` and `parse`; the gauge state is `none` while unset. -/
def updateGauge {α : Type} (parse : String → Option α)
    (propValue : Except String (Option String)) (gauge : Option α) :
    Option α :=
  match propValue with
  | Except.ok (some raw) =>
    match parse raw with
    | some v => some v
    | none => gauge
  | _ => gauge

/-- Fixture: row `{"a1": "x"}` of spec §8.7, in ASCII bytes. -/
def rowA1 : DBRow := ⟨[97, 49], [120]⟩

/-- Fixture: row `{"a2": "y"}` of spec §8.7. -/
def rowA2 : DBRow := ⟨[97, 50], [121]⟩

/-- Fixture: row `{"b1": "z"}` of spec §8.7. -/
def rowB1 : DBRow := ⟨[98, 49], [122]⟩

/-- Fixture: the store holding the three rows of spec §8.7. -/
def store3 : Store := [([97, 49], [120]), ([97, 50], [121]), ([98, 49], [122])]

/-- Fixture: a store holding keys `"a1"`, `"a2"` and the bare key `"b"` —
the key equal to the scan pfx `"a"` with its last byte incremented. -/
def storeB : Store := [([97, 49], [120]), ([97, 50], [121]), ([98], [119])]

/-- Fixture: a concrete parse function for gauge-update witnesses. -/
def parseFix (s : String) : Option Nat := if s = "42" then some 42 else none

/-- Fixture: a concrete engine per-key outcome for multi-get witnesses:
key `"a1"` is found, key `"b1"` fails at engine level, all others are
absent. -/
def lookupFix (k : Bytes) : Except String (Option Bytes) :=
  if k = [97, 49] then Except.ok (some [120])
  else if k = [98, 49] then Except.error "engine failure"
  else Except.ok none

theorem ltb_irrefl (a : Bytes) : ltb a a = false := by
  induction a with
  | nil => rfl
  | cons x xs ih => simp [ltb, ih]

theorem eq_of_ltb_false : ∀ (a b : Bytes), ltb a b = false → ltb b a = false → a = b
  | [], [], _, _ => rfl
  | [], _ :: _, hab, _ => by simp [ltb] at hab
  | _ :: _, [], _, hba => by simp [ltb] at hba
  | x :: xs, y :: ys, hab, hba => by
    by_cases hxy : x < y
    · simp [ltb, hxy] at hab
    · by_cases hyx : y < x
      · simp [ltb, hyx] at hba
      · have hxey : x = y := Nat.le_antisymm (Nat.le_of_not_lt hyx) (Nat.le_of_not_lt hxy)
        subst hxey
        simp only [ltb, if_neg hxy, if_neg hyx] at hab hba
        rw [eq_of_ltb_false xs ys hab hba]

theorem ltb_trans : ∀ (a b c : Bytes), ltb a b = true → ltb b c = true → ltb a c = true
  | [], [], _, hab, _ => by simp [ltb] at hab
  | _ :: _, [], _, hab, _ => by simp [ltb] at hab
  | [], _ :: _, [], _, hbc => by simp [ltb] at hbc
  | [], _ :: _, _ :: _, _, _ => by simp [ltb]
  | x :: xs, y :: ys, [], _, hbc => by simp [ltb] at hbc
  | x :: xs, y :: ys, z :: zs, hab, hbc => by
    by_cases hxy : x < y
    · by_cases hyz : y < z
      · simp [ltb, Nat.lt_trans hxy hyz]
      · by_cases hzy : z < y
        · simp [ltb, hyz, hzy] at hbc
        · have : y = z := Nat.le_antisymm (Nat.le_of_not_lt hzy) (Nat.le_of_not_lt hyz)
          subst this
          simp [ltb, hxy]
    · by_cases hyx : y < x
      · simp [ltb, hxy, hyx] at hab
      · have hxey : x = y := Nat.le_antisymm (Nat.le_of_not_lt hyx) (Nat.le_of_not_lt hxy)
        subst hxey
        simp only [ltb, if_neg hxy, Nat.lt_irrefl, if_neg (fun h => hxy h)] at hab
        by_cases hyz : x < z
        · simp [ltb, hyz]
        · by_cases hzy : z < x
          · simp [ltb, hyz, hzy] at hbc
          · have : x = z := Nat.le_antisymm (Nat.le_of_not_lt hzy) (Nat.le_of_not_lt hyz)
            subst this
            simp only [ltb, if_neg hyz, if_neg (fun h => hyz h)] at hbc ⊢
            exact ltb_trans xs ys zs hab hbc

theorem ltb_asymm (a b : Bytes) (h : ltb a b = true) : ltb b a = false := by
  by_contra hc
  have hba : ltb b a = true := by
    cases hx : ltb b a
    · exact absurd hx hc
    · rfl
  have := ltb_trans a b a h hba
  rw [ltb_irrefl] at this
  exact Bool.noConfusion this

theorem ltb_total (a b : Bytes) (h : ltb a b = false) : a = b ∨ ltb b a = true := by
  cases hx : ltb b a
  · exact Or.inl (eq_of_ltb_false a b h hx)
  · exact Or.inr rfl

/-- A key that starts with `p` is not below `p` in the engine's order. -/
theorem ltb_false_of_startsWith : ∀ (p k : Bytes), startsWithB p k = true → ltb k p = false
  | [], [], _ => rfl
  | [], _ :: _, _ => rfl
  | _ :: _, [], h => by simp [startsWithB] at h
  | a :: as, b :: bs, h => by
    simp only [startsWithB, Bool.and_eq_true, beq_iff_eq] at h
    obtain ⟨rfl, hs⟩ := h
    simp only [ltb, Nat.lt_irrefl, if_neg (Nat.lt_irrefl a)]
    exact ltb_false_of_startsWith as bs hs

/-- Separation: a key `k` at or above `p` that does not start with `p` is
strictly above every key that does start with `p`. -/
theorem ltb_of_startsWith_of_not :
    ∀ (p k : Bytes), startsWithB p k = false → ltb k p = false →
      ∀ k', startsWithB p k' = true → ltb k' k = true
  | [], k, hns, _, _, _ => by simp [startsWithB] at hns
  | _ :: _, [], _, hge, _, _ => by simp [ltb] at hge
  | a :: as, b :: bs, hns, hge, k', hk' => by
    match k', hk' with
    | c :: cs, hk' =>
      simp only [startsWithB, Bool.and_eq_true, beq_iff_eq] at hk'
      obtain ⟨rfl, hcs⟩ := hk'
      by_cases hab : a < b
      · simp [ltb, hab]
      · by_cases hba : b < a
        · simp [ltb, hba, Nat.lt_asymm hba] at hge
        · have : a = b := Nat.le_antisymm (Nat.le_of_not_lt hba) (Nat.le_of_not_lt hab)
          subst this
          simp only [startsWithB, beq_self_eq_true, Bool.true_and] at hns
          simp only [ltb, Nat.lt_irrefl, if_neg (Nat.lt_irrefl a)] at hge ⊢
          exact ltb_of_startsWith_of_not as bs hns hge cs hcs

theorem mem_putStore : ∀ (s : Store) (k v : Bytes) (e : Bytes × Bytes),
    e ∈ putStore s k v → e = (k, v) ∨ e ∈ s
  | [], k, v, e, he => by
    simp [putStore] at he
    exact Or.inl he
  | x :: rest, k, v, e, he => by
    by_cases h1 : ltb k x.1
    · simp only [putStore, if_pos h1, List.mem_cons] at he
      rcases he with h | h | h
      · exact Or.inl h
      · exact Or.inr (by simp [h])
      · exact Or.inr (by simp [h])
    · by_cases h2 : ltb x.1 k
      · simp only [putStore, if_neg h1, if_pos h2, List.mem_cons] at he
        rcases he with h | h
        · exact Or.inr (by simp [h])
        · rcases mem_putStore rest k v e h with h' | h'
          · exact Or.inl h'
          · exact Or.inr (by simp [h'])
      · simp only [putStore, if_neg h1, if_neg h2, List.mem_cons] at he
        rcases he with h | h
        · exact Or.inl h
        · exact Or.inr (by simp [h])

theorem getStore_putStore_same : ∀ (s : Store) (k v : Bytes),
    getStore (putStore s k v) k = some v
  | [], k, v => by simp [putStore, getStore]
  | x :: rest, k, v => by
    by_cases h1 : ltb k x.1
    · simp [putStore, if_pos h1, getStore]
    · by_cases h2 : ltb x.1 k
      · have hne : x.1 ≠ k := fun h => by
          rw [h] at h2
          rw [ltb_irrefl] at h2
          exact Bool.noConfusion h2
        simp [putStore, if_neg h1, if_pos h2, getStore, hne,
          getStore_putStore_same rest k v]
      · simp [putStore, if_neg h1, if_neg h2, getStore]

theorem getStore_putStore_other : ∀ (s : Store) (k v k' : Bytes), k' ≠ k →
    getStore (putStore s k v) k' = getStore s k'
  | [], k, v, k', hne => by
    simp [putStore, getStore, Ne.symm hne]
  | x :: rest, k, v, k', hne => by
    by_cases h1 : ltb k x.1
    · simp [putStore, if_pos h1, getStore, Ne.symm hne]
    · by_cases h2 : ltb x.1 k
      · simp only [putStore, if_neg h1, if_pos h2, getStore]
        by_cases hx : x.1 = k'
        · simp [hx]
        · simp [hx, getStore_putStore_other rest k v k' hne]
      · have hxk : x.1 = k :=
          eq_of_ltb_false x.1 k (Bool.eq_false_iff.mpr h2) (Bool.eq_false_iff.mpr h1)
        simp [putStore, getStore, hxk, ltb_irrefl, Ne.symm hne]

theorem sorted_putStore : ∀ (s : Store) (k v : Bytes), SortedStore s →
    SortedStore (putStore s k v)
  | [], k, v, _ => by simp [putStore, SortedStore]
  | x :: rest, k, v, hs => by
    rw [SortedStore, List.pairwise_cons] at hs
    obtain ⟨hx, hrest⟩ := hs
    by_cases h1 : ltb k x.1
    · rw [SortedStore]
      simp only [putStore, if_pos h1]
      rw [List.pairwise_cons]
      constructor
      · intro e he
        rcases List.mem_cons.mp he with rfl | he'
        · exact h1
        · exact ltb_trans k x.1 e.1 h1 (hx e he')
      · rw [List.pairwise_cons]
        exact ⟨hx, hrest⟩
    · by_cases h2 : ltb x.1 k
      · rw [SortedStore]
        simp only [putStore, if_neg h1, if_pos h2]
        rw [List.pairwise_cons]
        constructor
        · intro e he
          rcases mem_putStore rest k v e he with rfl | he'
          · exact h2
          · exact hx e he'
        · exact sorted_putStore rest k v hrest
      · have hxk : x.1 = k :=
          eq_of_ltb_false x.1 k (Bool.eq_false_iff.mpr h2) (Bool.eq_false_iff.mpr h1)
        rw [SortedStore]
        simp only [putStore, if_neg h1, if_neg h2]
        rw [List.pairwise_cons]
        exact ⟨fun e he => hxk ▸ hx e he, hrest⟩

theorem runScanAux_eq_takeWhile :
    ∀ (l : List (Bytes × Bytes)) (p : Bytes) (n : Nat), l.length < n →
      runScanAux n ⟨p, l, false⟩ =
        (l.takeWhile (fun e => startsWithB p e.1)).map entryRow
  | [], p, n + 1, _ => by
    simp [runScanAux, scanNext]
  | e :: rest, p, n + 1, hn => by
    by_cases hm : startsWithB p e.1
    · simp only [runScanAux, scanNext, if_neg (Bool.false_ne_true), if_pos hm]
      rw [runScanAux_eq_takeWhile rest p n (Nat.lt_of_succ_lt_succ hn)]
      simp [List.takeWhile_cons, hm, entryRow]
    · simp only [runScanAux, scanNext, if_neg (Bool.false_ne_true), if_neg hm]
      simp [List.takeWhile_cons, hm]

theorem runRevScanAux_eq_takeWhile :
    ∀ (l : List (Bytes × Bytes)) (p : Bytes) (n : Nat), l.length < n →
      runRevScanAux n ⟨p, l, false⟩ =
        (l.takeWhile (fun e => startsWithB p e.1)).map entryRow
  | [], p, n + 1, _ => by
    simp [runRevScanAux, revScanNext]
  | e :: rest, p, n + 1, hn => by
    by_cases hm : startsWithB p e.1
    · simp only [runRevScanAux, revScanNext, if_neg (Bool.false_ne_true), if_pos hm]
      rw [runRevScanAux_eq_takeWhile rest p n (Nat.lt_of_succ_lt_succ hn)]
      simp [List.takeWhile_cons, hm, entryRow]
    · simp only [runRevScanAux, revScanNext, if_neg (Bool.false_ne_true), if_neg hm]
      simp [List.takeWhile_cons, hm]

/-- Once a forward pull yields nothing, every later pull yields nothing and
leaves the state fixed. -/
theorem scanNext_none_absorbing (st st' : ScanIterator)
    (h : scanNext st = (none, st')) : scanNext st' = (none, st') := by
  by_cases hd : st.done
  · simp only [scanNext, if_pos hd] at h
    obtain rfl : st = st' := (Prod.mk.injEq _ _ _ _ ▸ h).2
    simp [scanNext, hd]
  · match hit : st.iter with
    | [] =>
      simp only [scanNext, if_neg hd, hit] at h
      obtain rfl : st = st' := (Prod.mk.injEq _ _ _ _ ▸ h).2
      simp [scanNext, hd, hit]
    | e :: rest =>
      simp only [scanNext, if_neg hd, hit] at h
      by_cases hm : startsWithB st.pfx e.1
      · rw [if_pos hm] at h
        exact absurd (Prod.mk.injEq _ _ _ _ ▸ h).1 (by simp)
      · rw [if_neg hm] at h
        obtain rfl : (⟨st.pfx, rest, true⟩ : ScanIterator) = st' :=
          (Prod.mk.injEq _ _ _ _ ▸ h).2
        simp [scanNext]

/-- Once a reverse pull yields nothing, every later pull yields nothing and
leaves the state fixed. -/
theorem revScanNext_none_absorbing (st st' : ReverseScanIterator)
    (h : revScanNext st = (none, st')) : revScanNext st' = (none, st') := by
  by_cases hd : st.done
  · simp only [revScanNext, if_pos hd] at h
    obtain rfl : st = st' := (Prod.mk.injEq _ _ _ _ ▸ h).2
    simp [revScanNext, hd]
  · match hit : st.iter with
    | [] =>
      simp only [revScanNext, if_neg hd, hit] at h
      obtain rfl : st = st' := (Prod.mk.injEq _ _ _ _ ▸ h).2
      simp [revScanNext, hd, hit]
    | e :: rest =>
      simp only [revScanNext, if_neg hd, hit] at h
      by_cases hm : startsWithB st.pfx e.1
      · rw [if_pos hm] at h
        exact absurd (Prod.mk.injEq _ _ _ _ ▸ h).1 (by simp)
      · rw [if_neg hm] at h
        obtain rfl : (⟨st.pfx, e :: rest, true⟩ : ReverseScanIterator) = st' :=
          (Prod.mk.injEq _ _ _ _ ▸ h).2
        simp [revScanNext]

theorem dropWhile_eq_self_of_forall {α : Type} (pred : α → Bool) :
    ∀ (l : List α), (∀ x ∈ l, pred x = false) → l.dropWhile pred = l
  | [], _ => rfl
  | x :: xs, h => by
    rw [List.dropWhile_cons, if_neg]
    simp [h x (by simp)]

/-- On a sorted store, seeking to the first key not below `p` and taking
entries while they start with `p` visits exactly the entries whose key
starts with `p`. -/
theorem takeWhile_dropWhile_filter :
    ∀ (s : Store) (p : Bytes), SortedStore s →
      (s.dropWhile (fun e => ltb e.1 p)).takeWhile (fun e => startsWithB p e.1) =
        s.filter (fun e => startsWithB p e.1)
  | [], _, _ => rfl
  | e :: rest, p, hs => by
    rw [SortedStore, List.pairwise_cons] at hs
    obtain ⟨hx, hrest⟩ := hs
    by_cases h1 : ltb e.1 p
    · have hmne : startsWithB p e.1 = false := by
        cases hm : startsWithB p e.1
        · rfl
        · rw [ltb_false_of_startsWith p e.1 hm] at h1
          exact Bool.noConfusion h1
      rw [List.dropWhile_cons, if_pos (by simp [h1]), List.filter_cons,
        if_neg (by simp [hmne])]
      exact takeWhile_dropWhile_filter rest p hrest
    · have h1f : ltb e.1 p = false := Bool.eq_false_iff.mpr h1
      rw [List.dropWhile_cons, if_neg (by simp [h1f])]
      by_cases hm : startsWithB p e.1
      · rw [List.takeWhile_cons, if_pos hm, List.filter_cons, if_pos (by simp [hm])]
        have hdrop : rest.dropWhile (fun x => ltb x.1 p) = rest := by
          apply dropWhile_eq_self_of_forall
          intro x hxr
          cases hxp : ltb x.1 p
          · rfl
          · have habs := ltb_trans e.1 x.1 p (hx x hxr) hxp
            rw [h1f] at habs
            exact Bool.noConfusion habs
        have ih := takeWhile_dropWhile_filter rest p hrest
        rw [hdrop] at ih
        rw [ih]
      · have hmf : startsWithB p e.1 = false := Bool.eq_false_iff.mpr hm
        rw [List.takeWhile_cons, if_neg (by simp [hmf]), List.filter_cons,
          if_neg (by simp [hmf])]
        symm
        rw [List.filter_eq_nil_iff]
        intro a ha hq
        have hlt := ltb_of_startsWith_of_not p e.1 hmf h1f a.1 hq
        have habs := ltb_trans e.1 a.1 e.1 (hx a ha) hlt
        rw [ltb_irrefl] at habs
        exact Bool.noConfusion habs

/-- On a sorted store, seeking backward from the last key not above `u` and
taking entries while they start with `p` visits exactly the entries whose
key starts with `p`, in descending order — provided every matching key is
not above `u` and every non-matching key not above `u` sits below `p`. -/
theorem takeWhile_reverse_filter (p u : Bytes) (s : Store) :
    SortedStore s →
    (∀ e ∈ s, startsWithB p e.1 = true → ltb u e.1 = false) →
    (∀ e ∈ s, ltb u e.1 = false → startsWithB p e.1 = false → ltb e.1 p = true) →
    ((s.filter (fun e => !ltb u e.1)).reverse).takeWhile
        (fun e => startsWithB p e.1) =
      (s.filter (fun e => startsWithB p e.1)).reverse := by
  induction s using List.reverseRecOn with
  | nil => intro _ _ _; rfl
  | append_singleton s' e ih =>
    intro hs hcov hgap
    have hs' : SortedStore s' := by
      rw [SortedStore] at hs ⊢
      exact (List.pairwise_append.mp hs).1
    have habove : ∀ x ∈ s', ltb x.1 e.1 = true := by
      intro x hxm
      exact (List.pairwise_append.mp hs).2.2 x hxm e (by simp)
    have hcov' : ∀ x ∈ s', startsWithB p x.1 = true → ltb u x.1 = false :=
      fun x hxm => hcov x (List.mem_append_left _ hxm)
    have hgap' : ∀ x ∈ s', ltb u x.1 = false → startsWithB p x.1 = false →
        ltb x.1 p = true :=
      fun x hxm => hgap x (List.mem_append_left _ hxm)
    rw [List.filter_append, List.filter_append, List.reverse_append,
      List.reverse_append]
    by_cases hq : startsWithB p e.1
    · have hc : ltb u e.1 = false := hcov e (by simp) hq
      have hf1 : List.filter (fun e => !ltb u e.1) [e] = [e] := by simp [hc]
      have hf2 : List.filter (fun e => startsWithB p e.1) [e] = [e] := by
        simp [hq]
      rw [hf1, hf2, List.reverse_singleton, List.singleton_append,
        List.singleton_append, List.takeWhile_cons, if_pos hq,
        ih hs' hcov' hgap']
    · have hqf : startsWithB p e.1 = false := Bool.eq_false_iff.mpr hq
      by_cases hc : ltb u e.1
      · have hf1 : List.filter (fun e => !ltb u e.1) [e] = [] := by simp [hc]
        have hf2 : List.filter (fun e => startsWithB p e.1) [e] = [] := by
          simp [hqf]
        rw [hf1, hf2, List.reverse_nil, List.nil_append, List.nil_append,
          ih hs' hcov' hgap']
      · have hcf : ltb u e.1 = false := Bool.eq_false_iff.mpr hc
        have hbelow : ltb e.1 p = true := hgap e (by simp) hcf hqf
        have hf1 : List.filter (fun e => !ltb u e.1) [e] = [e] := by simp [hcf]
        have hf2 : List.filter (fun e => startsWithB p e.1) [e] = [] := by
          simp [hqf]
        rw [hf1, hf2, List.reverse_singleton, List.singleton_append,
          List.reverse_nil, List.nil_append, List.takeWhile_cons,
          if_neg (by simp [hqf])]
        symm
        rw [List.reverse_eq_nil_iff, List.filter_eq_nil_iff]
        intro a ha hqa
        have hge : ltb a.1 p = false := ltb_false_of_startsWith p a.1 hqa
        have habs := ltb_trans a.1 e.1 p (habove a ha) hbelow
        rw [hge] at habs
        exact Bool.noConfusion habs

theorem leKey_trans (a b c : DBRow) (hab : leKey a b = true)
    (hbc : leKey b c = true) : leKey a c = true := by
  rw [leKey, Bool.not_eq_true_eq_eq_false] at hab hbc ⊢
  cases hca : ltb c.key a.key
  · rfl
  · rcases ltb_total b.key a.key hab with heq | hlt
    · rw [← heq] at hca
      rw [hca] at hbc
      exact hbc
    · have := ltb_trans c.key a.key b.key hca hlt
      rw [hbc] at this
      exact Bool.noConfusion this

theorem leKey_total (a b : DBRow) : (leKey a b || leKey b a) = true := by
  rw [leKey, leKey]
  cases hab : ltb b.key a.key
  · simp
  · cases hba : ltb a.key b.key
    · simp
    · have := ltb_asymm a.key b.key hba
      rw [hab] at this
      exact Bool.noConfusion this

theorem insertRow_perm (r : DBRow) :
    ∀ (l : List DBRow), (insertRow r l).Perm (r :: l)
  | [] => List.Perm.refl _
  | x :: xs => by
    rw [insertRow]
    by_cases h : leKey r x
    · rw [if_pos h]
    · rw [if_neg h]
      exact ((insertRow_perm r xs).cons x).trans (List.Perm.swap r x xs)

theorem sortRows_perm : ∀ (l : List DBRow), (sortRows l).Perm l
  | [] => List.Perm.refl _
  | r :: rest =>
    (insertRow_perm r (sortRows rest)).trans ((sortRows_perm rest).cons r)

theorem sorted_insertRow (r : DBRow) :
    ∀ (l : List DBRow), List.Pairwise (fun a b => leKey a b = true) l →
      List.Pairwise (fun a b => leKey a b = true) (insertRow r l)
  | [], _ => by simp [insertRow]
  | x :: xs, h => by
    rw [List.pairwise_cons] at h
    obtain ⟨hx, hxs⟩ := h
    rw [insertRow]
    by_cases hle : leKey r x
    · rw [if_pos hle, List.pairwise_cons]
      refine ⟨?_, ?_⟩
      · intro y hy
        rcases List.mem_cons.mp hy with rfl | hy'
        · exact hle
        · exact leKey_trans r x y hle (hx y hy')
      · rw [List.pairwise_cons]
        exact ⟨hx, hxs⟩
    · have hxr : leKey x r = true := by
        have htot := leKey_total r x
        rw [Bool.eq_false_iff.mpr hle] at htot
        simpa using htot
      rw [if_neg hle, List.pairwise_cons]
      refine ⟨?_, sorted_insertRow r xs hxs⟩
      intro y hy
      have hmem := (insertRow_perm r xs).mem_iff.mp hy
      rcases List.mem_cons.mp hmem with rfl | hy'
      · exact hxr
      · exact hx y hy'

theorem sorted_sortRows : ∀ (l : List DBRow),
    List.Pairwise (fun a b => leKey a b = true) (sortRows l)
  | [] => List.Pairwise.nil
  | r :: rest => sorted_insertRow r (sortRows rest) (sorted_sortRows rest)

/-- The committed value under `k` after applying a batch in order is the
value of the last row keyed `k` in the batch, or the prior contents when
the batch holds no such row. -/
theorem getStore_foldl_put :
    ∀ (l : List DBRow) (s : Store) (k : Bytes),
      getStore (l.foldl (fun acc r => putStore acc r.key r.value) s) k =
        (match (l.filter (fun r => r.key == k)).getLast? with
         | some r => some r.value
         | none => getStore s k)
  | [], s, k => by simp [List.filter_nil]
  | r :: rest, s, k => by
    rw [List.foldl_cons, getStore_foldl_put rest (putStore s r.key r.value) k,
      List.filter_cons]
    by_cases heq : r.key = k
    · rw [if_pos (by simp [heq])]
      rcases hfr : rest.filter (fun r => r.key == k) with _ | ⟨x, xs⟩
      · rw [hfr, List.getLast?_singleton]
        subst heq
        simp [getStore_putStore_same]
      · rw [hfr, List.getLast?_cons_cons]
        cases hgl : (x :: xs).getLast? with
        | none => simp at hgl
        | some y => rfl
    · rw [if_neg (by simp [heq])]
      rcases hfr : rest.filter (fun r => r.key == k) with _ | ⟨x, xs⟩
      · rw [hfr]
        simp only [List.getLast?_nil]
        exact getStore_putStore_other s r.key r.value k (fun h => heq h.symm)
      · rw [hfr]
        cases hgl : (x :: xs).getLast? with
        | none => simp at hgl
        | some y => rfl

/-- C1: on open, the compatibility bytes are the little-endian 4-byte
encoding of the fixed schema version 1, with exactly one extra byte of
value 1 appended iff reduced-data (light) mode is configured; for every
store: an absent marker key "V" is written with the computed bytes, a
present unequal marker makes the open fail fatally (the reindex-required
panic, modelled as `none`), and a present equal marker leaves the store
untouched. -/
theorem c1_compatibility_check (cfg : Config) (s : Store) :
    compatibilityBytes cfg = [1, 0, 0, 0] ++ (if cfg.light_mode then [1] else [])
    ∧ (getStore s vKey = none →
        verifyCompatibility s cfg = some (putStore s vKey (compatibilityBytes cfg)))
    ∧ (∀ x, getStore s vKey = some x → x ≠ compatibilityBytes cfg →
        verifyCompatibility s cfg = none)
    ∧ (getStore s vKey = some (compatibilityBytes cfg) →
        verifyCompatibility s cfg = some s) := by
  refine ⟨?_, ?_, ?_, ?_⟩
  · cases hl : cfg.light_mode <;>
      simp [compatibilityBytes, serializeLittle, DB_VERSION, hl]
  · intro h
    rw [verifyCompatibility, h]
  · intro x hx hne
    rw [verifyCompatibility, hx]
    simp [hne]
  · intro h
    rw [verifyCompatibility, h]
    simp

/-- C1 witness: first open writes the marker; a corrupt marker is fatal;
a matching marker proceeds untouched. -/
theorem c1_witness :
    verifyCompatibility [] ⟨false⟩ =
        some (putStore [] vKey (compatibilityBytes ⟨false⟩))
    ∧ verifyCompatibility [([86], [9])] ⟨false⟩ = none
    ∧ verifyCompatibility [([86], [1, 0, 0, 0])] ⟨false⟩ =
        some [([86], [1, 0, 0, 0])] :=
  ⟨(c1_compatibility_check ⟨false⟩ []).2.1 (by decide),
   (c1_compatibility_check ⟨false⟩ [([86], [9])]).2.2.1 [9] (by decide) (by decide),
   (c1_compatibility_check ⟨false⟩ [([86], [1, 0, 0, 0])]).2.2.2 (by decide)⟩

/-- C5 counterexample: a store opened (and marked) with light mode off is
rejected — the open fails fatally — when reopened with light mode on, and
vice versa, although the schema version is unchanged; the claim that such
an open must still succeed is false. -/
theorem c5_counterexample :
    verifyCompatibility (putStore [] vKey (compatibilityBytes ⟨false⟩)) ⟨true⟩ = none
    ∧ verifyCompatibility (putStore [] vKey (compatibilityBytes ⟨true⟩)) ⟨false⟩ = none := by
  decide

/-- C5 (amended): toggling reduced-data (light) mode between two opens of
the same store, with the schema version unchanged, does force a re-index:
the second open fails fatally, because the marker recorded by the first
open differs from the newly computed bytes by the appended mode byte. -/
theorem c5_toggle_mode_rejected (c1 c2 : Config) (s s' : Store)
    (h : verifyCompatibility s c1 = some s')
    (hne : c1.light_mode ≠ c2.light_mode) :
    verifyCompatibility s' c2 = none := by
  have hmark : getStore s' vKey = some (compatibilityBytes c1) := by
    rw [verifyCompatibility] at h
    cases hv : getStore s vKey with
    | none =>
      rw [hv] at h
      have h' : some (putStore s vKey (compatibilityBytes c1)) = some s' := h
      obtain rfl := Option.some.inj h'
      exact getStore_putStore_same s vKey _
    | some x =>
      rw [hv] at h
      have h' : (if x = compatibilityBytes c1 then some s else none) = some s' := h
      by_cases hx : x = compatibilityBytes c1
      · rw [if_pos hx] at h'
        obtain rfl := Option.some.inj h'
        rw [hv, hx]
      · rw [if_neg hx] at h'
        exact Option.noConfusion h'
  have hbne : compatibilityBytes c1 ≠ compatibilityBytes c2 := by
    obtain ⟨b1⟩ := c1
    obtain ⟨b2⟩ := c2
    cases b1 <;> cases b2
    · exact absurd rfl hne
    · decide
    · decide
    · exact absurd rfl hne
  rw [verifyCompatibility, hmark]
  show (if compatibilityBytes c1 = compatibilityBytes c2 then some s' else none) = none
  rw [if_neg hbne]

/-- C5 amended-claim witness: a store marked with light mode off is
concretely rejected on reopen with light mode on. -/
theorem c5_witness :
    verifyCompatibility (putStore [] vKey (compatibilityBytes ⟨false⟩)) ⟨true⟩ = none :=
  c5_toggle_mode_rejected ⟨false⟩ ⟨true⟩ []
    (putStore [] vKey (compatibilityBytes ⟨false⟩)) (by decide) (by decide)

/-- C7: reopening an already-compatible store with identical configuration
is idempotent: the second compatibility check succeeds and returns the
store unchanged, so the marker bytes under "V" are never mutated. -/
theorem c7_reopen_idempotent (cfg : Config) (s s' : Store)
    (h : verifyCompatibility s cfg = some s') :
    verifyCompatibility s' cfg = some s'
    ∧ getStore s' vKey = some (compatibilityBytes cfg) := by
  rw [verifyCompatibility] at h
  cases hv : getStore s vKey with
  | none =>
    rw [hv] at h
    have h' : some (putStore s vKey (compatibilityBytes cfg)) = some s' := h
    obtain rfl := Option.some.inj h'
    have hg : getStore (putStore s vKey (compatibilityBytes cfg)) vKey =
        some (compatibilityBytes cfg) :=
      getStore_putStore_same s vKey _
    constructor
    · rw [verifyCompatibility, hg]
      simp
    · exact hg
  | some x =>
    rw [hv] at h
    have h' : (if x = compatibilityBytes cfg then some s else none) = some s' := h
    by_cases hx : x = compatibilityBytes cfg
    · rw [if_pos hx] at h'
      obtain rfl := Option.some.inj h'
      subst hx
      constructor
      · rw [verifyCompatibility, hv]
        simp
      · exact hv
    · rw [if_neg hx] at h'
      exact Option.noConfusion h'

/-- C7 witness: a concrete first open followed by a reopen with the same
configuration succeeds and keeps the marker. -/
theorem c7_witness :
    verifyCompatibility (putStore [] vKey (compatibilityBytes ⟨true⟩)) ⟨true⟩ =
        some (putStore [] vKey (compatibilityBytes ⟨true⟩))
    ∧ getStore (putStore [] vKey (compatibilityBytes ⟨true⟩)) vKey =
        some (compatibilityBytes ⟨true⟩) :=
  c7_reopen_idempotent ⟨true⟩ []
    (putStore [] vKey (compatibilityBytes ⟨true⟩)) (by decide)

/-- C2: over any sorted store, the forward scan for pfx `p` yields exactly
the rows whose key starts with `p` — never any other row — as a finite
list in ascending byte-lexicographic key order; and any pull that yields
nothing leaves the iterator in a state that yields nothing on every later
pull. -/
theorem c2_forward_scan_exact (s : Store) (p : Bytes) (hs : SortedStore s) :
    runScan (iterScan s p) = (s.filter (fun e => startsWithB p e.1)).map entryRow
    ∧ List.Pairwise (fun r1 r2 : DBRow => ltb r1.key r2.key = true)
        (runScan (iterScan s p))
    ∧ ∀ st st' : ScanIterator, scanNext st = (none, st') →
        scanNext st' = (none, st') := by
  have hrun : runScan (iterScan s p) =
      (s.filter (fun e => startsWithB p e.1)).map entryRow := by
    simp only [runScan, iterScan]
    rw [runScanAux_eq_takeWhile _ p _ (Nat.lt_succ_self _)]
    rw [takeWhile_dropWhile_filter s p hs]
  refine ⟨hrun, ?_, scanNext_none_absorbing⟩
  rw [hrun, List.pairwise_map]
  exact List.Pairwise.filter _ hs

/-- C2 witness: the §8.7 store is sorted and its forward scan over "a"
yields exactly the matching rows, concretely `[("a1","x"), ("a2","y")]`. -/
theorem c2_witness :
    SortedStore store3
    ∧ runScan (iterScan store3 [97]) =
        (store3.filter (fun e => startsWithB [97] e.1)).map entryRow
    ∧ runScan (iterScan store3 [97]) = [rowA1, rowA2] :=
  ⟨by decide, (c2_forward_scan_exact store3 [97] (by decide)).1, by decide⟩

/-- C3 counterexample: with the §8.7 rows, the upper bound "a1" — chosen
within the pfx range of "a" — makes the reverse scan yield only the
"a1" row while the forward scan yields both matching rows; and with the
bare key "b" stored, the bound "b" (the pfx with its last byte
incremented, i.e. immediately past the range) makes the reverse scan
yield nothing at all. The claimed equality of key sets for every such
bound is false. -/
theorem c3_counterexample :
    (runRevScan (iterScanReverse store3 [97] [97, 49]) = [rowA1]
      ∧ runScan (iterScan store3 [97]) = [rowA1, rowA2])
    ∧ (runRevScan (iterScanReverse storeB [97] [98]) = []
      ∧ runScan (iterScan storeB [97]) = [rowA1, rowA2]) := by
  decide

/-- C3 (amended): over any sorted store, whenever the upper bound `u`
covers every stored key starting with `p` and no stored key not above `u`
other than the matching ones lies at or above `p`, the reverse scan over
`(p, u)` yields exactly the forward scan's rows in reverse (descending)
order — in particular the same key set. -/
theorem c3_reverse_scan_amended (s : Store) (p u : Bytes) (hs : SortedStore s)
    (hcov : ∀ e ∈ s, startsWithB p e.1 = true → ltb u e.1 = false)
    (hgap : ∀ e ∈ s, ltb u e.1 = false → startsWithB p e.1 = false →
      ltb e.1 p = true) :
    runRevScan (iterScanReverse s p u) = (runScan (iterScan s p)).reverse := by
  simp only [runRevScan, iterScanReverse]
  rw [runRevScanAux_eq_takeWhile _ p _ (Nat.lt_succ_self _)]
  rw [takeWhile_reverse_filter p u s hs hcov hgap]
  simp only [runScan, iterScan]
  rw [runScanAux_eq_takeWhile _ p _ (Nat.lt_succ_self _)]
  rw [takeWhile_dropWhile_filter s p hs]
  rw [List.map_reverse]

/-- C3 amended-claim witness: the §8.7 scenario — forward scan over "a"
yields `[("a1","x"), ("a2","y")]` and the reverse scan bounded by
`"a\xff"` yields `[("a2","y"), ("a1","x")]`, its exact reverse. -/
theorem c3_witness :
    SortedStore store3
    ∧ runRevScan (iterScanReverse store3 [97] [97, 255]) =
        (runScan (iterScan store3 [97])).reverse
    ∧ runScan (iterScan store3 [97]) = [rowA1, rowA2]
    ∧ runRevScan (iterScanReverse store3 [97] [97, 255]) = [rowA2, rowA1] :=
  ⟨by decide,
   c3_reverse_scan_amended store3 [97] [97, 255] (by decide) (by decide) (by decide),
   by decide, by decide⟩

/-- C10: `iter_scan_from` terminates at the first cursor key that does not
start with the pfx, even when that key precedes the pfx range: whenever
the first stored key at or after `start_at` does not start with `p`, the
scan yields no rows at all — even when rows with that pfx exist further
on in the store. -/
theorem c10_scan_from_stops_early (s : Store) (p q : Bytes)
    (e : Bytes × Bytes) (rest : List (Bytes × Bytes))
    (hdrop : s.dropWhile (fun x => ltb x.1 q) = e :: rest)
    (hnm : startsWithB p e.1 = false) :
    runScan (iterScanFrom s p q) = [] := by
  simp only [runScan, iterScanFrom, hdrop]
  simp [runScanAux, scanNext, hnm]

/-- C10 witness: scanning for pfx "b" from the empty start key over a
store holding "a1", "a2", "b" yields nothing, although the matching row
keyed "b" is present. -/
theorem c10_witness :
    (startsWithB [98] [98] = true ∧ ([98], [119]) ∈ storeB)
    ∧ runScan (iterScanFrom storeB [98] []) = [] :=
  ⟨by decide,
   c10_scan_from_stops_early storeB [98] [] ([97, 49], [120])
     [([97, 50], [121]), ([98], [119])] (by decide) (by decide)⟩

/-- C4: `write` sorts the batch by ascending key before committing it as
one atomic batch, and when duplicate keys appear in one batch the conflict
resolves deterministically — the committed value under each key is that of
the last row with that key after the sort, or the prior contents when the
batch holds no such row — and the flush mode never changes contents. -/
theorem c4_write_sorted_last_wins (s : Store) (rows : List DBRow) (k : Bytes)
    (fl : DBFlush) :
    List.Pairwise (fun a b : DBRow => leKey a b = true) (sortRows rows)
    ∧ getStore (writeRows s rows fl) k =
        (match ((sortRows rows).filter (fun r => r.key == k)).getLast? with
         | some r => some r.value
         | none => getStore s k)
    ∧ writeRows s rows DBFlush.Disable = writeRows s rows DBFlush.Enable := by
  refine ⟨?_, ?_, rfl⟩
  · exact sorted_sortRows rows
  · exact getStore_foldl_put (sortRows rows) s k

/-- C6: a value written by `put` (or by `write`, under either flush mode,
when its key occurs exactly once in the batch) is returned exactly by a
subsequent `get`; `get` answers `none` only for keys the batch never wrote
and the store never held; and an empty written value reads back as
present-and-empty, distinct from absence. -/
theorem c6_get_returns_written (s : Store) (k v : Bytes) (rows : List DBRow)
    (fl : DBFlush) :
    getStore (putStore s k v) k = some v
    ∧ (rows.filter (fun r => r.key == k) = [⟨k, v⟩] →
        getStore (writeRows s rows fl) k = some v)
    ∧ (getStore (writeRows s rows fl) k = none →
        (∀ r ∈ rows, r.key ≠ k) ∧ getStore s k = none)
    ∧ getStore (putStore s k []) k = some []
    ∧ some ([] : Bytes) ≠ none := by
  have hperm : ((sortRows rows).filter (fun r => r.key == k)).Perm
      (rows.filter (fun r => r.key == k)) :=
    List.Perm.filter _ (sortRows_perm rows)
  have hfold := getStore_foldl_put (sortRows rows) s k
  refine ⟨getStore_putStore_same s k v, ?_, ?_, getStore_putStore_same s k [],
    by simp⟩
  · intro hf
    have hsf : (sortRows rows).filter (fun r => r.key == k) = [⟨k, v⟩] :=
      List.perm_singleton.mp (hf ▸ hperm)
    simp only [writeRows]
    rw [hfold, hsf, List.getLast?_singleton]
  · intro hn
    simp only [writeRows] at hn
    rw [hfold] at hn
    cases hgl : ((sortRows rows).filter (fun r => r.key == k)).getLast? with
    | some r =>
      rw [hgl] at hn
      exact Option.noConfusion hn
    | none =>
      rw [hgl] at hn
      have hnil : (sortRows rows).filter (fun r => r.key == k) = [] :=
        List.getLast?_eq_none_iff.mp hgl
      have hrnil : rows.filter (fun r => r.key == k) = [] :=
        List.Perm.eq_nil (hnil ▸ hperm).symm
      constructor
      · intro r hr hkr
        have hmem := List.filter_eq_nil_iff.mp hrnil r hr
        simp [hkr] at hmem
      · exact hn

/-- C6 witness: putting and batch-writing the "a1" row makes `get`
return exactly its value; a never-written key reads back absent. -/
theorem c6_witness :
    getStore (putStore [] [97, 49] [120]) [97, 49] = some [120]
    ∧ getStore (writeRows [] [rowA1, rowA2, rowB1] DBFlush.Disable) [97, 49] =
        some [120]
    ∧ getStore ([] : Store) [99] = none :=
  ⟨(c6_get_returns_written [] [97, 49] [120] [rowA1, rowA2, rowB1]
      DBFlush.Disable).1,
   (c6_get_returns_written [] [97, 49] [120] [rowA1, rowA2, rowB1]
      DBFlush.Disable).2.1 (by decide),
   ((c6_get_returns_written [] [99] [0] [rowA1, rowA2, rowB1]
      DBFlush.Disable).2.2.1 (by decide)).2⟩

/-- C8: `multi_get` returns one outcome per input key, in input order, and
each outcome is exactly the engine's independent per-key outcome for that
key — so an engine-level failure on one key can neither abort nor mask the
result for any other key. -/
theorem c8_multi_get_per_key (f g : Bytes → Except String (Option Bytes))
    (keys : List Bytes) :
    (multiGet f keys).length = keys.length
    ∧ (∀ (i : Nat) (k : Bytes), keys[i]? = some k →
        (multiGet f keys)[i]? = some (f k))
    ∧ (∀ (i : Nat), (∀ k, keys[i]? = some k → f k = g k) →
        (multiGet f keys)[i]? = (multiGet g keys)[i]?) := by
  refine ⟨by simp [multiGet], ?_, ?_⟩
  · intro i k hk
    simp [multiGet, hk]
  · intro i hfg
    simp only [multiGet, List.getElem?_map]
    cases hk : keys[i]? with
    | none => rfl
    | some k => simp [hfg k hk]

/-- C8 witness: a three-key batch where the middle key fails at engine
level still yields three results in order, and the failing key's outcome
does not disturb its neighbours. -/
theorem c8_witness :
    (multiGet lookupFix [[97, 49], [98, 49], [97, 50]]).length =
        [[97, 49], [98, 49], [97, 50]].length
    ∧ (multiGet lookupFix [[97, 49], [98, 49], [97, 50]])[1]? =
        some (lookupFix [98, 49])
    ∧ (multiGet lookupFix [[97, 49], [98, 49], [97, 50]])[0]? =
        some (Except.ok (some [120])) :=
  ⟨(c8_multi_get_per_key lookupFix lookupFix [[97, 49], [98, 49], [97, 50]]).1,
   (c8_multi_get_per_key lookupFix lookupFix [[97, 49], [98, 49], [97, 50]]).2.1
     1 [98, 49] (by decide),
   rfl⟩

/-- C9: one stats-exporter gauge update: an engine-level failure, an
absent property, or an unparseable value leaves the gauge unchanged — the
sample is silently skipped and no error is raised or surfaced (the update
is a total function into a gauge state) — while a present and parseable
value sets the gauge to the parsed value. -/
theorem c9_update_gauge_best_effort {α : Type} (parse : String → Option α)
    (pv : Except String (Option String)) (g : Option α) :
    (∀ e, pv = Except.error e → updateGauge parse pv g = g)
    ∧ (pv = Except.ok none → updateGauge parse pv g = g)
    ∧ (∀ raw, pv = Except.ok (some raw) → parse raw = none →
        updateGauge parse pv g = g)
    ∧ (∀ raw v, pv = Except.ok (some raw) → parse raw = some v →
        updateGauge parse pv g = some v) := by
  refine ⟨?_, ?_, ?_, ?_⟩
  · intro e he
    subst he
    rfl
  · intro h
    subst h
    rfl
  · intro raw h hp
    subst h
    simp [updateGauge, hp]
  · intro raw v h hp
    subst h
    simp [updateGauge, hp]

/-- C9 witness: a read failure, an absent property, and an unparseable
string each leave a concrete gauge untouched; a parseable "42" sets it. -/
theorem c9_witness :
    updateGauge parseFix (Except.error "io") (some 7) = some 7
    ∧ updateGauge parseFix (Except.ok none) (some 7) = some 7
    ∧ updateGauge parseFix (Except.ok (some "bad")) (some 7) = some 7
    ∧ updateGauge parseFix (Except.ok (some "42")) (some 7) = some 42 :=
  ⟨(c9_update_gauge_best_effort parseFix (Except.error "io") (some 7)).1
      "io" rfl,
   (c9_update_gauge_best_effort parseFix (Except.ok none) (some 7)).2.1 rfl,
   (c9_update_gauge_best_effort parseFix (Except.ok (some "bad")) (some 7)).2.2.1
      "bad" rfl (by decide),
   (c9_update_gauge_best_effort parseFix (Except.ok (some "42")) (some 7)).2.2.2
      "42" 42 rfl (by decide)⟩

end FlokiDB
